import Mathlib

/-!
Shallow embedding of the analysis core of `src/app.py` (Bible_DataSearch).

Tokens and verse texts are modelled as `List Char`.  The static rule
tables (`MERGE_RULES`, `STOPWORDS_EXACT`, `SUFFIXES`, `IGNORE_STARTS`,
`IGNORE_ENDS`), the normalizer `normalize_word`, the stop-pattern test
`is_stop_pattern`, the frequency aggregator `get_top_words_fast` and the
search engine `search_word_in_bible` are translated clause by clause from
the Python source.  Python dicts and `collections.Counter` are modelled
as insertion-ordered association lists, which matches Python's
insertion-ordered dict iteration.
-/

namespace BibleApp

/-- The characters of a string literal, used to write Korean tokens. -/
def s2l (s : String) : List Char := s.data

/-- `MERGE_RULES` of app.py lines 21-26 (dict as an association list). -/
def MERGE_RULES : List (List Char × List Char) :=
  [(s2l "이르시되", s2l "이르되"),
   (s2l "가라사대", s2l "이르되"),
   (s2l "사람들", s2l "사람"),
   (s2l "자들", s2l "자")]

/-- Dict lookup in `MERGE_RULES`. -/
def mergeLookup (w : List Char) : Option (List Char) :=
  (MERGE_RULES.find? (fun p => p.1 == w)).map Prod.snd

/-- `STOPWORDS_EXACT` of app.py lines 29-33. -/
def STOPWORDS_EXACT : List (List Char) :=
  ["위하", "것이", "너희", "너희가", "너희는", "내가", "네가",
   "그", "이", "저", "내", "네", "나", "너", "우리",
   "있다", "있는", "있어", "하니", "하나", "하라", "이에"].map s2l

/-- `SUFFIXES` of app.py lines 36-40, in the source order. -/
def SUFFIXES : List (List Char) :=
  ["하사", "하시니라", "하시매", "하더라", "하니라", "하리로다",
   "께서", "에게", "으로", "에서", "하고", "이나", "까지", "부터", "이라", "니라",
   "은", "는", "이", "가", "을", "를", "의", "와", "과", "도", "로", "께", "여"].map s2l

/-- `IGNORE_STARTS` of app.py line 43. -/
def IGNORE_STARTS : List Char := s2l "이그저내네나너우자누"

/-- `IGNORE_ENDS` of app.py line 44. -/
def IGNORE_ENDS : List Char := s2l "것들등중뿐쯤위가는도를은"

/-- The suffix-stripping loop of `normalize_word` (app.py lines 48-51):
scan the suffix list in order; on the first suffix that matches the end of
the word, keep `word[:-len(suffix)]` if that stem is non-empty, otherwise
keep scanning. -/
def stripSuffix : List (List Char) → List Char → Option (List Char)
  | [], _ => none
  | s :: rest, word =>
    if s.isSuffixOf word then
      let stem := word.take (word.length - s.length)
      if 1 ≤ stem.length then some stem else stripSuffix rest word
    else stripSuffix rest word

/-- `normalize_word` of app.py lines 46-52. -/
def normalize_word (word : List Char) : List Char :=
  if word.length < 2 then word
  else
    match stripSuffix SUFFIXES word with
    | some stem => stem
    | none => word

/-- Contiguous-substring test, Python's `pat in text` for strings. -/
def containsSub (pat : List Char) : List Char → Bool
  | [] => pat.isEmpty
  | c :: rest => pat.isPrefixOf (c :: rest) || containsSub pat rest

/-- `is_stop_pattern` of app.py lines 54-58. -/
def is_stop_pattern (word : List Char) : Bool :=
  if !(word.length == 2 || word.length == 3) then false
  else if containsSub (s2l "너희") word || containsSub (s2l "위하") word then true
  else
    match word.head?, word.getLast? with
    | some a, some b => IGNORE_STARTS.contains a && IGNORE_ENDS.contains b
    | _, _ => false

/-- The stopword-filter condition of `get_top_words_fast` (app.py line 137):
a token is dropped when its stem is an exact member of `STOPWORDS_EXACT`,
or the stem or the raw token matches the stop pattern. -/
def isNoise (word : List Char) : Bool :=
  STOPWORDS_EXACT.contains (normalize_word word) ||
    is_stop_pattern (normalize_word word) || is_stop_pattern word

/-- The composite per-token normalization performed by
`get_top_words_fast` (app.py lines 128-135): merge-rule lookup on the raw
token, else suffix stripping followed by a merge-rule lookup on the stem. -/
def normalize (word : List Char) : List Char :=
  match mergeLookup word with
  | some target => target
  | none =>
    match mergeLookup (normalize_word word) with
    | some target => target
    | none => normalize_word word

/-- One character of the `\w` class used by `re.findall` in app.py
line 123, restricted to the scripts the corpus uses: ASCII alphanumerics,
underscore, and Hangul syllables. -/
def isWordChar (c : Char) : Bool :=
  c.isAlphanum || c == '_' || (0xAC00 ≤ c.toNat && c.toNat ≤ 0xD7A3)

/-- Single pass of `re.findall(r'\w+', text)`; `cur` is the reversed run
of word characters read so far. -/
def tokenizeAux : List Char → List Char → List (List Char)
  | [], cur => if cur.isEmpty then [] else [cur.reverse]
  | c :: rest, cur =>
    if isWordChar c then tokenizeAux rest (c :: cur)
    else if cur.isEmpty then tokenizeAux rest []
    else cur.reverse :: tokenizeAux rest []

/-- `re.findall(r'\w+', text)`: the maximal runs of word characters. -/
def tokenize (cs : List Char) : List (List Char) := tokenizeAux cs []

/-- `" ".join(texts)` of app.py line 122. -/
def joinSpace : List (List Char) → List Char
  | [] => []
  | [t] => t
  | t :: u :: rest => t ++ ' ' :: joinSpace (u :: rest)

/-- Add `k` occurrences of key `w` to an insertion-ordered counter. -/
def incr : List (List Char × Nat) → List Char → Nat → List (List Char × Nat)
  | [], w, k => [(w, k)]
  | (x, c) :: rest, w, k =>
    if x == w then (x, c + k) :: rest else (x, c) :: incr rest w k

/-- `Counter(raw_words)` of app.py line 124: per-word counts, keys in
first-encounter order. -/
def countList (ws : List (List Char)) : List (List Char × Nat) :=
  ws.foldl (fun t w => incr t w 1) []

/-- The body of the per-word loop of `get_top_words_fast`
(app.py lines 127-140), acting on the accumulated `final_counter`. -/
def step (acc : List (List Char × Nat)) (wc : List Char × Nat) :
    List (List Char × Nat) :=
  match mergeLookup wc.1 with
  | some target => incr acc target wc.2
  | none =>
    let stem := normalize_word wc.1
    match mergeLookup stem with
    | some target => incr acc target wc.2
    | none =>
      if STOPWORDS_EXACT.contains stem || is_stop_pattern stem || is_stop_pattern wc.1
      then acc
      else if 1 < stem.length then incr acc stem wc.2
      else acc

/-- One stable-insertion pass of `Counter.most_common`: larger counts
first, first-encountered keys first among equal counts. -/
def insertRanked : List (List Char × Nat) → List Char × Nat → List (List Char × Nat)
  | [], p => [p]
  | q :: rest, p => if p.2 ≤ q.2 then q :: insertRanked rest p else p :: q :: rest

/-- `Counter.most_common()` ordering (descending count, stable). -/
def sortRanked (l : List (List Char × Nat)) : List (List Char × Nat) :=
  l.foldl insertRanked []

/-- `get_top_words_fast` of app.py lines 121-142; the dataframe argument
is represented by the list of its verse texts in row order. -/
def get_top_words_fast (texts : List (List Char)) (n : Nat) :
    List (List Char × Nat) :=
  let full_text := joinSpace texts
  let raw_words := tokenize full_text
  let raw_counter := countList raw_words
  let final_counter := raw_counter.foldl step []
  (sortRanked final_counter).take n

/-- One dataframe row (book, chapter, verse, text) as built by
`load_data` in app.py lines 93-99. -/
structure Verse where
  book : List Char
  chapter : Nat
  verse : Nat
  text : List Char
deriving DecidableEq

/-- Python `str.strip()`. -/
def trim (cs : List Char) : List Char :=
  ((cs.dropWhile Char.isWhitespace).reverse.dropWhile Char.isWhitespace).reverse

/-- Python `str.split('+')`, with `cur` the reversed current piece. -/
def splitPlusAux (cur : List Char) : List Char → List (List Char)
  | [] => [cur.reverse]
  | c :: rest =>
    if c == '+' then cur.reverse :: splitPlusAux [] rest
    else splitPlusAux (c :: cur) rest

/-- `keyword.split('+')` of app.py line 152. -/
def splitPlus (cs : List Char) : List (List Char) := splitPlusAux [] cs

/-- `[k.strip() for k in keyword.split('+') if k.strip()]`
(app.py line 152). -/
def subKeywords (keyword : List Char) : List (List Char) :=
  ((splitPlus keyword).map trim).filter (fun k => !k.isEmpty)

/-- Left-to-right scan for `text.count(pat)`; `skip` is the number of
positions still covered by the previously counted occurrence (so matches
are non-overlapping, as for Python's `str.count`). -/
def countOccAux (pat : List Char) : List Char → Nat → Nat
  | [], _ => 0
  | _ :: rest, skip + 1 => countOccAux pat rest skip
  | c :: rest, 0 =>
    if pat.isPrefixOf (c :: rest) then 1 + countOccAux pat rest (pat.length - 1)
    else countOccAux pat rest 0

/-- Python `text.count(pat)`: non-overlapping occurrences counted from the
left.  (`search_word_in_bible` only calls it with a non-empty pattern.) -/
def countOcc (pat text : List Char) : Nat :=
  if pat.isEmpty then 0 else countOccAux pat text 0

/-- `search_word_in_bible` of app.py lines 144-173.  Matching rows are
returned as the rows themselves (the source formats each row into a
display string; the formatting is presentation, one entry per row). -/
def search_word_in_bible (df : List Verse) (keyword0 : List Char) :
    Nat × List Verse × String :=
  let keyword := trim keyword0
  if keyword.isEmpty then (0, [], "")
  else if keyword.contains '+' then
    let keywords := subKeywords keyword
    let r := df.foldl
      (fun acc v =>
        if keywords.all (fun k => containsSub k v.text) then (acc.1 + 1, acc.2 ++ [v])
        else acc) (0, [])
    (r.1, r.2, "verse")
  else
    let r := df.foldl
      (fun acc v =>
        if 0 < countOcc keyword v.text then
          (acc.1 + countOcc keyword v.text, acc.2 ++ [v])
        else acc) (0, [])
    (r.1, r.2, "word")

/-- Absence of shadowing in a suffix list: no earlier entry is a proper
suffix of a later entry, so the first match of the scan in `stripSuffix`
is always a longest match. -/
def noShadow : List (List Char) → Bool
  | [] => true
  | a :: rest => rest.all (fun b => !(a.isSuffixOf b && !(a == b))) && noShadow rest

/-! ## Helper lemmas about the search engine -/

theorem foldl_conj (P : Verse → Bool) (df : List Verse) (n : Nat) (acc : List Verse) :
    df.foldl (fun a v => if P v then (a.1 + 1, a.2 ++ [v]) else a) (n, acc)
      = (n + (df.filter P).length, acc ++ df.filter P) := by
  induction df generalizing n acc with
  | nil => simp
  | cons v rest ih =>
    rw [List.foldl_cons, List.filter_cons]
    by_cases h : P v
    · rw [if_pos h, if_pos h, ih, Prod.mk.injEq]
      refine ⟨?_, ?_⟩
      · rw [List.length_cons]
        omega
      · simp
    · rw [if_neg h, if_neg h, ih]

theorem foldl_occ (f : Verse → Nat) (df : List Verse) (n : Nat) (acc : List Verse) :
    df.foldl (fun a v => if 0 < f v then (a.1 + f v, a.2 ++ [v]) else a) (n, acc)
      = (n + (df.map f).sum, acc ++ df.filter (fun v => 0 < f v)) := by
  induction df generalizing n acc with
  | nil => simp
  | cons v rest ih =>
    rw [List.foldl_cons, List.map_cons, List.sum_cons, List.filter_cons]
    by_cases h : 0 < f v
    · rw [if_pos h, if_pos (by simp [h]), ih, Prod.mk.injEq]
      refine ⟨by omega, by simp⟩
    · rw [if_neg h, if_neg (by simp [h]), ih, Prod.mk.injEq]
      refine ⟨by omega, rfl⟩

theorem filter_pos_length_le_sum (f : Verse → Nat) (df : List Verse) :
    (df.filter (fun v => 0 < f v)).length ≤ (df.map f).sum := by
  induction df with
  | nil => simp
  | cons v rest ih =>
    rw [List.filter_cons, List.map_cons, List.sum_cons]
    by_cases h : 0 < f v
    · rw [if_pos (by simp [h]), List.length_cons]
      omega
    · rw [if_neg (by simp [h])]
      omega

theorem sum_eq_zero_iff_filter_pos_eq_nil (f : Verse → Nat) (df : List Verse) :
    (df.map f).sum = 0 ↔ df.filter (fun v => 0 < f v) = [] := by
  induction df with
  | nil => simp
  | cons v rest ih =>
    rw [List.filter_cons, List.map_cons, List.sum_cons]
    by_cases h : 0 < f v
    · rw [if_pos (by simp [h])]
      constructor
      · intro hs
        omega
      · intro hs
        cases hs
    · have hz : f v = 0 := by omega
      rw [if_neg (by simp [h]), hz, Nat.zero_add]
      exact ih

theorem trim_not_isEmpty (q : List Char) (h : trim q ≠ []) :
    (trim q).isEmpty = false := by
  cases hq : trim q with
  | nil => exact absurd hq h
  | cons a l => rfl

/-- The empty-query branch of `search_word_in_bible`. -/
theorem search_empty (df : List Verse) (q : List Char) (h : trim q = []) :
    search_word_in_bible df q = (0, [], "") := by
  unfold search_word_in_bible
  rw [h]
  rfl

/-- The conjunctive branch of `search_word_in_bible`. -/
theorem search_conj (df : List Verse) (q : List Char)
    (h : (trim q).contains '+' = true) :
    search_word_in_bible df q =
      ((df.filter fun v => (subKeywords (trim q)).all fun k => containsSub k v.text).length,
       (df.filter fun v => (subKeywords (trim q)).all fun k => containsSub k v.text),
       "verse") := by
  have hne : (trim q).isEmpty = false := by
    apply trim_not_isEmpty
    intro hnil
    rw [hnil] at h
    exact absurd h (by decide)
  simp only [search_word_in_bible, hne, h, Bool.false_eq_true, if_false, if_true]
  rw [foldl_conj (fun v => (subKeywords (trim q)).all fun k => containsSub k v.text) df 0 []]
  simp

/-- The occurrence-count branch of `search_word_in_bible`. -/
theorem search_occ (df : List Verse) (q : List Char)
    (h1 : trim q ≠ []) (h2 : (trim q).contains '+' = false) :
    search_word_in_bible df q =
      ((df.map fun v => countOcc (trim q) v.text).sum,
       (df.filter fun v => 0 < countOcc (trim q) v.text),
       "word") := by
  simp only [search_word_in_bible, trim_not_isEmpty q h1, h2, Bool.false_eq_true,
    if_false]
  rw [foldl_occ (fun v => countOcc (trim q) v.text) df 0 []]
  simp

theorem splitPlusAux_chars (l : List Char) :
    ∀ cur piece, piece ∈ splitPlusAux cur l → ∀ c ∈ piece,
      c ∈ cur ∨ (c ∈ l ∧ c ≠ '+') := by
  induction l with
  | nil =>
    intro cur piece hp c hc
    simp only [splitPlusAux, List.mem_singleton] at hp
    subst hp
    exact Or.inl (List.mem_reverse.1 hc)
  | cons d rest ih =>
    intro cur piece hp c hc
    by_cases hd : d = '+'
    · rw [splitPlusAux, if_pos (by simp [hd])] at hp
      rcases List.mem_cons.1 hp with rfl | hrest
      · exact Or.inl (List.mem_reverse.1 hc)
      · rcases ih [] piece hrest c hc with hcur | ⟨hcl, hcp⟩
        · cases hcur
        · exact Or.inr ⟨List.mem_cons_of_mem d hcl, hcp⟩
    · rw [splitPlusAux, if_neg (by simp [hd])] at hp
      rcases ih (d :: cur) piece hp c hc with hcur | ⟨hcl, hcp⟩
      · rcases List.mem_cons.1 hcur with hceq | hcur2
        · rw [hceq]
          exact Or.inr ⟨List.mem_cons_self _ _, hd⟩
        · exact Or.inl hcur2
      · exact Or.inr ⟨List.mem_cons_of_mem d hcl, hcp⟩

theorem trim_eq_nil_of_ws (l : List Char) (h : ∀ c ∈ l, c.isWhitespace = true) :
    trim l = [] := by
  unfold trim
  rw [List.dropWhile_eq_nil_iff.2 h]
  rfl

theorem subKeywords_eq_nil (kw : List Char)
    (h : ∀ c ∈ kw, c = '+' ∨ c.isWhitespace = true) : subKeywords kw = [] := by
  unfold subKeywords
  rw [List.filter_eq_nil_iff]
  intro k hk
  rcases List.mem_map.1 hk with ⟨piece, hpiece, rfl⟩
  have : trim piece = [] := by
    apply trim_eq_nil_of_ws
    intro c hc
    rcases splitPlusAux_chars kw [] piece hpiece c hc with hcur | ⟨hcl, hcp⟩
    · cases hcur
    · rcases h c hcl with rfl | hws
      · exact absurd rfl hcp
      · exact hws
  rw [this]
  decide

/-! ## Claims about the search engine -/

/-- C5: for every verse sequence and every query whose trimmed form
contains `+`, the search runs conjunctively: the rows kept are exactly
those whose text contains every sub-keyword (trimmed, empty pieces
discarded) as a raw substring, and the count is the number of such rows,
with mode `"verse"`. -/
theorem c5_conjunctive_mode (df : List Verse) (q : List Char)
    (h : (trim q).contains '+' = true) :
    search_word_in_bible df q =
      ((df.filter fun v => (subKeywords (trim q)).all fun k => containsSub k v.text).length,
       (df.filter fun v => (subKeywords (trim q)).all fun k => containsSub k v.text),
       "verse") :=
  search_conj df q h

theorem c5_conjunctive_mode_witness :
    search_word_in_bible
        [⟨s2l "창세기", 1, 1, s2l "태초에 하나님이"⟩,
         ⟨s2l "창세기", 1, 2, s2l "하나님의 사랑"⟩] (s2l "하나님+사랑") =
      ((([⟨s2l "창세기", 1, 1, s2l "태초에 하나님이"⟩,
          ⟨s2l "창세기", 1, 2, s2l "하나님의 사랑"⟩] :
           List Verse).filter fun v =>
             (subKeywords (trim (s2l "하나님+사랑"))).all fun k => containsSub k v.text).length,
       (([⟨s2l "창세기", 1, 1, s2l "태초에 하나님이"⟩,
          ⟨s2l "창세기", 1, 2, s2l "하나님의 사랑"⟩] :
           List Verse).filter fun v =>
             (subKeywords (trim (s2l "하나님+사랑"))).all fun k => containsSub k v.text),
       "verse") ∧
    search_word_in_bible
        [⟨s2l "창세기", 1, 1, s2l "태초에 하나님이"⟩,
         ⟨s2l "창세기", 1, 2, s2l "하나님의 사랑"⟩] (s2l "하나님+사랑") =
      (1, [⟨s2l "창세기", 1, 2, s2l "하나님의 사랑"⟩], "verse") :=
  ⟨c5_conjunctive_mode
    [⟨s2l "창세기", 1, 1, s2l "태초에 하나님이"⟩,
     ⟨s2l "창세기", 1, 2, s2l "하나님의 사랑"⟩] (s2l "하나님+사랑") (by decide),
   by decide⟩

/-- C6: for every verse sequence and every non-empty trimmed query without
`+`, the search counts occurrences: the count is the sum over all rows of
the non-overlapping occurrences of the literal query, and a row is listed
once iff its occurrence count is positive, with mode `"word"`. -/
theorem c6_occurrence_mode (df : List Verse) (q : List Char)
    (h1 : trim q ≠ []) (h2 : (trim q).contains '+' = false) :
    search_word_in_bible df q =
      ((df.map fun v => countOcc (trim q) v.text).sum,
       (df.filter fun v => 0 < countOcc (trim q) v.text),
       "word") :=
  search_occ df q h1 h2

theorem c6_occurrence_mode_witness :
    search_word_in_bible
        [⟨s2l "창세기", 1, 1, s2l "태초에 하나님이"⟩,
         ⟨s2l "창세기", 1, 2, s2l "하나님의 하나님"⟩] (s2l "하나님") =
      ((([⟨s2l "창세기", 1, 1, s2l "태초에 하나님이"⟩,
          ⟨s2l "창세기", 1, 2, s2l "하나님의 하나님"⟩] :
           List Verse).map fun v => countOcc (trim (s2l "하나님")) v.text).sum,
       (([⟨s2l "창세기", 1, 1, s2l "태초에 하나님이"⟩,
          ⟨s2l "창세기", 1, 2, s2l "하나님의 하나님"⟩] :
           List Verse).filter fun v => 0 < countOcc (trim (s2l "하나님")) v.text),
       "word") ∧
    search_word_in_bible
        [⟨s2l "창세기", 1, 1, s2l "태초에 하나님이"⟩,
         ⟨s2l "창세기", 1, 2, s2l "하나님의 하나님"⟩] (s2l "하나님") =
      (3, [⟨s2l "창세기", 1, 1, s2l "태초에 하나님이"⟩,
           ⟨s2l "창세기", 1, 2, s2l "하나님의 하나님"⟩], "word") :=
  ⟨c6_occurrence_mode
    [⟨s2l "창세기", 1, 1, s2l "태초에 하나님이"⟩,
     ⟨s2l "창세기", 1, 2, s2l "하나님의 하나님"⟩] (s2l "하나님")
    (by decide) (by decide),
   by decide⟩

/-- C7: a query that is empty after trimming returns count 0, an empty
passage list and the undefined mode `""`, for every verse sequence. -/
theorem c7_empty_query (df : List Verse) (q : List Char) (h : trim q = []) :
    search_word_in_bible df q = (0, [], "") :=
  search_empty df q h

theorem c7_empty_query_witness :
    search_word_in_bible [⟨s2l "창세기", 1, 1, s2l "태초에"⟩] (s2l "   ") =
      (0, [], "") :=
  c7_empty_query [⟨s2l "창세기", 1, 1, s2l "태초에"⟩] (s2l "   ") (by decide)

/-- C9: a query that trims to a non-empty string made of `+` and
whitespace only selects the conjunctive mode with an empty sub-keyword
list, so every verse matches vacuously: the count is the number of verses
and every verse is listed. -/
theorem c9_plus_only_query (df : List Verse) (q : List Char)
    (hplus : (trim q).contains '+' = true)
    (honly : ∀ c ∈ trim q, c = '+' ∨ c.isWhitespace = true) :
    search_word_in_bible df q = (df.length, df, "verse") := by
  rw [search_conj df q hplus, subKeywords_eq_nil (trim q) honly]
  simp

theorem c9_plus_only_query_witness :
    search_word_in_bible [⟨s2l "a", 1, 1, s2l "x"⟩, ⟨s2l "a", 1, 2, s2l "y"⟩]
        (s2l "+") =
      (2, [⟨s2l "a", 1, 1, s2l "x"⟩, ⟨s2l "a", 1, 2, s2l "y"⟩], "verse") :=
  c9_plus_only_query [⟨s2l "a", 1, 1, s2l "x"⟩, ⟨s2l "a", 1, 2, s2l "y"⟩]
    (s2l "+") (by decide) (by decide)

/-- C10: in conjunctive mode the count equals the number of returned
passages; in occurrence mode it is at least that number; and in every mode
the count is zero exactly when the passage list is empty. -/
theorem c10_count_invariants (df : List Verse) (q : List Char) :
    ((search_word_in_bible df q).2.2 = "verse" →
      (search_word_in_bible df q).1 = (search_word_in_bible df q).2.1.length) ∧
    ((search_word_in_bible df q).2.2 = "word" →
      (search_word_in_bible df q).2.1.length ≤ (search_word_in_bible df q).1) ∧
    ((search_word_in_bible df q).1 = 0 ↔ (search_word_in_bible df q).2.1 = []) := by
  by_cases h0 : trim q = []
  · rw [search_empty df q h0]
    refine ⟨fun _ => rfl, fun _ => Nat.le_refl _, by simp⟩
  · by_cases h1 : (trim q).contains '+' = true
    · rw [search_conj df q h1]
      refine ⟨fun _ => rfl,
        fun hw => absurd (show ("verse" : String) = "word" from hw) (by decide), ?_⟩
      exact List.length_eq_zero
    · rw [search_occ df q h0 (by simpa using h1)]
      refine ⟨fun hv => absurd (show ("word" : String) = "verse" from hv) (by decide),
        fun _ => ?_, ?_⟩
      · exact filter_pos_length_le_sum _ df
      · exact sum_eq_zero_iff_filter_pos_eq_nil _ df

/-! ## Helper lemmas about the aggregator -/

theorem mergeLookup_mem {w t : List Char} (h : mergeLookup w = some t) :
    ∃ p ∈ MERGE_RULES, p.2 = t := by
  unfold mergeLookup at h
  cases hf : MERGE_RULES.find? (fun p => p.1 == w) with
  | none => rw [hf] at h; cases h
  | some p =>
    rw [hf] at h
    exact ⟨p, List.mem_of_find?_eq_some hf, by simpa using h⟩

theorem incr_keys {K : List Char → Prop} (acc : List (List Char × Nat))
    (w : List Char) (k : Nat) (hacc : ∀ p ∈ acc, K p.1) (hw : K w) :
    ∀ p ∈ incr acc w k, K p.1 := by
  induction acc with
  | nil =>
    intro p hp
    simp only [incr, List.mem_singleton] at hp
    rw [hp]
    exact hw
  | cons q rest ih =>
    obtain ⟨x, c⟩ := q
    intro p hp
    rw [incr] at hp
    by_cases hx : (x == w) = true
    · rw [if_pos hx] at hp
      rcases List.mem_cons.1 hp with hpe | hprest
      · rw [hpe]
        exact hacc (x, c) (List.mem_cons_self _ _)
      · exact hacc p (List.mem_cons_of_mem _ hprest)
    · rw [if_neg hx] at hp
      rcases List.mem_cons.1 hp with hpe | hprest
      · rw [hpe]
        exact hacc (x, c) (List.mem_cons_self _ _)
      · exact ih (fun r hr => hacc r (List.mem_cons_of_mem _ hr)) p hprest

theorem step_keys {K : List Char → Prop}
    (hmt : ∀ w t, mergeLookup w = some t → K t)
    (hlong : ∀ w : List Char, 1 < w.length → K w)
    (acc : List (List Char × Nat)) (wc : List Char × Nat)
    (hacc : ∀ p ∈ acc, K p.1) : ∀ p ∈ step acc wc, K p.1 := by
  cases hm : mergeLookup wc.1 with
  | some t =>
    simp only [step, hm]
    exact incr_keys acc t wc.2 hacc (hmt wc.1 t hm)
  | none =>
    cases hm2 : mergeLookup (normalize_word wc.1) with
    | some t =>
      simp only [step, hm, hm2]
      exact incr_keys acc t wc.2 hacc (hmt _ t hm2)
    | none =>
      simp only [step, hm, hm2]
      by_cases hn :
          (STOPWORDS_EXACT.contains (normalize_word wc.1) ||
            is_stop_pattern (normalize_word wc.1) || is_stop_pattern wc.1) = true
      · rw [if_pos hn]
        exact hacc
      · rw [if_neg hn]
        by_cases hl : 1 < (normalize_word wc.1).length
        · rw [if_pos hl]
          exact incr_keys acc _ wc.2 hacc (hlong _ hl)
        · rw [if_neg hl]
          exact hacc

theorem fold_step_keys {K : List Char → Prop}
    (hmt : ∀ w t, mergeLookup w = some t → K t)
    (hlong : ∀ w : List Char, 1 < w.length → K w)
    (l : List (List Char × Nat)) :
    ∀ acc, (∀ p ∈ acc, K p.1) → ∀ p ∈ l.foldl step acc, K p.1 := by
  induction l with
  | nil => exact fun acc hacc => hacc
  | cons wc rest ih =>
    intro acc hacc
    rw [List.foldl_cons]
    exact ih (step acc wc) (step_keys hmt hlong acc wc hacc)

theorem mem_insertRanked (l : List (List Char × Nat)) (q p : List Char × Nat)
    (hp : p ∈ insertRanked l q) : p ∈ l ∨ p = q := by
  induction l with
  | nil =>
    simp only [insertRanked, List.mem_singleton] at hp
    exact Or.inr hp
  | cons r rest ih =>
    rw [insertRanked] at hp
    by_cases hc : q.2 ≤ r.2
    · rw [if_pos hc] at hp
      rcases List.mem_cons.1 hp with hpe | hprest
      · exact Or.inl (by rw [hpe]; exact List.mem_cons_self _ _)
      · rcases ih hprest with hin | hq
        · exact Or.inl (List.mem_cons_of_mem _ hin)
        · exact Or.inr hq
    · rw [if_neg hc] at hp
      rcases List.mem_cons.1 hp with hpe | hprest
      · exact Or.inr hpe
      · exact Or.inl hprest

theorem mem_foldl_insertRanked (l : List (List Char × Nat)) :
    ∀ acc p, p ∈ l.foldl insertRanked acc → p ∈ acc ∨ p ∈ l := by
  induction l with
  | nil => exact fun acc p hp => Or.inl hp
  | cons q rest ih =>
    intro acc p hp
    rw [List.foldl_cons] at hp
    rcases ih (insertRanked acc q) p hp with hacc | hrest
    · rcases mem_insertRanked acc q p hacc with hin | hq
      · exact Or.inl hin
      · exact Or.inr (by rw [hq]; exact List.mem_cons_self _ _)
    · exact Or.inr (List.mem_cons_of_mem _ hrest)

theorem mem_sortRanked (l : List (List Char × Nat)) (p : List Char × Nat)
    (hp : p ∈ sortRanked l) : p ∈ l := by
  rcases mem_foldl_insertRanked l [] p hp with h0 | h
  · cases h0
  · exact h

/-! ## Helper lemmas about suffix stripping -/

/-- The concrete suffix list of the source is shadow-free: no earlier
entry is a proper suffix of a later entry (`으로` precedes `로`, `하니라`
and `하시니라` precede `니라`), so the scan order realizes
longest-match-first on this list. -/
theorem suffixes_noShadow : noShadow SUFFIXES = true := by decide

theorem stripSuffix_longest (word s : List Char) :
    ∀ l : List (List Char), noShadow l = true → s ∈ l →
      s.isSuffixOf word = true → 1 ≤ word.length - s.length →
      ∃ t ∈ l, t.isSuffixOf word = true ∧ s.length ≤ t.length ∧
        1 ≤ word.length - t.length ∧
        stripSuffix l word = some (word.take (word.length - t.length)) := by
  intro l
  induction l with
  | nil =>
    intro _ hs
    cases hs
  | cons a rest ih =>
    intro hns hs hsfx hrem
    rw [noShadow, Bool.and_eq_true] at hns
    obtain ⟨hns1, hns2⟩ := hns
    by_cases ha : a.isSuffixOf word = true
    · by_cases harem : 1 ≤ word.length - a.length
      · have hstem : (word.take (word.length - a.length)).length
            = word.length - a.length :=
          List.length_take_of_le (Nat.sub_le _ _)
        refine ⟨a, List.mem_cons_self _ _, ha, ?_, harem, ?_⟩
        · rcases List.mem_cons.1 hs with hse | hsrest
          · rw [hse]
          · have ha2 : a <:+ word := List.isSuffixOf_iff_suffix.1 ha
            have hs2 : s <:+ word := List.isSuffixOf_iff_suffix.1 hsfx
            have hb := List.all_eq_true.1 hns1 s hsrest
            rcases List.suffix_or_suffix_of_suffix ha2 hs2 with has | hsa
            · have hab : a.isSuffixOf s = true := List.isSuffixOf_iff_suffix.2 has
              have heq : a = s := by simpa [hab] using hb
              rw [heq]
            · exact hsa.length_le
        · rw [stripSuffix, if_pos ha]
          show (if 1 ≤ (word.take (word.length - a.length)).length then
              some (word.take (word.length - a.length))
            else stripSuffix rest word) = some (word.take (word.length - a.length))
          rw [if_pos (by rw [hstem]; exact harem)]
      · have hsrest : s ∈ rest := by
          rcases List.mem_cons.1 hs with hse | hsr
          · rw [hse] at hrem
            exact absurd hrem harem
          · exact hsr
        obtain ⟨t, htm, htfx, htlen, htrem, hteq⟩ := ih hns2 hsrest hsfx hrem
        refine ⟨t, List.mem_cons_of_mem _ htm, htfx, htlen, htrem, ?_⟩
        rw [stripSuffix, if_pos ha]
        show (if 1 ≤ (word.take (word.length - a.length)).length then
            some (word.take (word.length - a.length))
          else stripSuffix rest word) = some (word.take (word.length - t.length))
        rw [if_neg (by rw [List.length_take_of_le (Nat.sub_le _ _)]; exact harem)]
        exact hteq
    · have hsrest : s ∈ rest := by
        rcases List.mem_cons.1 hs with hse | hsr
        · rw [hse] at hsfx
          exact absurd hsfx ha
        · exact hsr
      obtain ⟨t, htm, htfx, htlen, htrem, hteq⟩ := ih hns2 hsrest hsfx hrem
      refine ⟨t, List.mem_cons_of_mem _ htm, htfx, htlen, htrem, ?_⟩
      rw [stripSuffix, if_neg ha]
      exact hteq

/-! ## Claims about the normalizer, filter and aggregator -/

/-- C3: longest-match precedence of suffix stripping: whenever a token
ends in two listed suffixes of different lengths, each leaving a non-empty
stem, `normalize_word` strips a listed suffix at least as long as the
longer of the two — never only the shorter one. -/
theorem c3_suffix_longest_match (word sLong sShort : List Char)
    (h1 : sLong ∈ SUFFIXES) (h2 : sShort ∈ SUFFIXES)
    (hlen : sShort.length < sLong.length)
    (hsfx1 : sLong.isSuffixOf word = true) (hsfx2 : sShort.isSuffixOf word = true)
    (hrem : 1 ≤ word.length - sLong.length) :
    ∃ t ∈ SUFFIXES, t.isSuffixOf word = true ∧ sLong.length ≤ t.length ∧
      normalize_word word = word.take (word.length - t.length) ∧
      normalize_word word ≠ word.take (word.length - sShort.length) := by
  have hWlen : sLong.length ≤ word.length :=
    (List.isSuffixOf_iff_suffix.1 hsfx1).length_le
  have hpos : 1 ≤ sShort.length := by
    have hall : ∀ u ∈ SUFFIXES, 1 ≤ u.length := by decide
    exact hall sShort h2
  have hnot2 : ¬ word.length < 2 := by omega
  obtain ⟨t, htm, htfx, htlen, htrem, hteq⟩ :=
    stripSuffix_longest word sLong SUFFIXES suffixes_noShadow h1 hsfx1 hrem
  have htW : t.length ≤ word.length :=
    (List.isSuffixOf_iff_suffix.1 htfx).length_le
  have hnw : normalize_word word = word.take (word.length - t.length) := by
    rw [normalize_word, if_neg hnot2, hteq]
  refine ⟨t, htm, htfx, htlen, hnw, ?_⟩
  rw [hnw]
  intro hcon
  have hlens := congrArg List.length hcon
  rw [List.length_take_of_le (Nat.sub_le _ _),
    List.length_take_of_le (Nat.sub_le _ _)] at hlens
  omega

theorem c3_suffix_longest_match_witness :
    ∃ t ∈ SUFFIXES, t.isSuffixOf (s2l "창조하시니라") = true ∧
      (s2l "하시니라").length ≤ t.length ∧
      normalize_word (s2l "창조하시니라") =
        (s2l "창조하시니라").take ((s2l "창조하시니라").length - t.length) ∧
      normalize_word (s2l "창조하시니라") ≠
        (s2l "창조하시니라").take ((s2l "창조하시니라").length - (s2l "니라").length) :=
  c3_suffix_longest_match (s2l "창조하시니라") (s2l "하시니라") (s2l "니라")
    (by decide) (by decide) (by decide) (by decide) (by decide) (by decide)

/-- C1 fails on the code: the merge rule `자들 → 자` inserts the
single-character word `자` into the frequency table with no noise or
length check, so `get_top_words_fast` returns a (word, count) pair whose
word has length 1. -/
theorem c1_min_length_cex :
    get_top_words_fast [s2l "자들"] 10 = [(s2l "자", 1)] ∧
      (s2l "자").length = 1 ∧
      (∃ p ∈ MERGE_RULES, p.1 = s2l "자들") := by
  refine ⟨by decide, by decide, by decide⟩

/-- C1 amended: every (word, count) pair returned by `get_top_words_fast`
has a word of length ≥ 2 unless the word is the value of a merge rule;
merge-rule values bypass the noise and length filters, and the value `자`
has length 1. -/
theorem c1_min_length_amended (texts : List (List Char)) (n : Nat)
    (p : List Char × Nat) (hp : p ∈ get_top_words_fast texts n) :
    2 ≤ p.1.length ∨ ∃ q ∈ MERGE_RULES, q.2 = p.1 := by
  have hp2 : p ∈ sortRanked ((countList (tokenize (joinSpace texts))).foldl step []) := by
    exact List.take_subset n _ hp
  have hp3 := mem_sortRanked _ p hp2
  refine fold_step_keys
    (K := fun w => 2 ≤ w.length ∨ ∃ q ∈ MERGE_RULES, q.2 = w)
    ?_ ?_ _ [] (by intro r hr; cases hr) p hp3
  · intro w t hmt
    exact Or.inr (mergeLookup_mem hmt)
  · intro w hw
    exact Or.inl hw

theorem c1_min_length_amended_witness :
    2 ≤ (s2l "자").length ∨ ∃ q ∈ MERGE_RULES, q.2 = s2l "자" :=
  c1_min_length_amended [s2l "자들"] 10 (s2l "자", 1) (by decide)

/-- C2 fails on the code: `것이` is a member of `STOPWORDS_EXACT`, but the
filter checks only the normalized stem (here `것`) against the exact
stopword list, never the raw token, so `것이` is not classified as
noise. -/
theorem c2_stopword_raw_cex :
    STOPWORDS_EXACT.contains (s2l "것이") = true ∧
      isNoise (s2l "것이") = false := by
  refine ⟨by decide, by decide⟩

/-- C2 amended: the filter classifies a token as noise iff its normalized
stem is an exact member of `STOPWORDS_EXACT` or the stem or the raw token
matches the pattern rule — the raw token is never compared with
`STOPWORDS_EXACT`; every stopword is either classified as noise or has a
stem of length ≤ 1 (and is then excluded by the aggregator's length
filter instead). -/
theorem c2_stopword_amended :
    (∀ w, isNoise w =
        (STOPWORDS_EXACT.contains (normalize_word w) ||
          is_stop_pattern (normalize_word w) || is_stop_pattern w)) ∧
      ∀ w ∈ STOPWORDS_EXACT, isNoise w = true ∨ (normalize_word w).length ≤ 1 :=
  ⟨fun _ => rfl, by decide⟩

theorem c2_stopword_amended_witness :
    isNoise (s2l "너희") = true ∨ (normalize_word (s2l "너희")).length ≤ 1 :=
  c2_stopword_amended.2 (s2l "너희") (by decide)

/-- C4: a raw token that is an exact key of the merge rules is mapped to
its value immediately, before and regardless of suffix stripping, and
every merge-rule key normalizes to its value. -/
theorem c4_merge_precedence :
    (∀ w t, mergeLookup w = some t → normalize w = t) ∧
      ∀ p ∈ MERGE_RULES, normalize p.1 = p.2 := by
  refine ⟨?_, by decide⟩
  intro w t h
  unfold normalize
  rw [h]

theorem c4_merge_precedence_witness :
    normalize (s2l "가라사대") = s2l "이르되" :=
  c4_merge_precedence.1 (s2l "가라사대") (s2l "이르되") (by decide)

theorem joinSpace_chars (ts : List (List Char)) :
    ∀ c ∈ joinSpace ts, (∃ t ∈ ts, c ∈ t) ∨ c = ' ' := by
  induction ts with
  | nil => intro c hc; cases hc
  | cons t rest ih =>
    cases rest with
    | nil =>
      intro c hc
      exact Or.inl ⟨t, List.mem_cons_self _ _, by simpa [joinSpace] using hc⟩
    | cons u rest2 =>
      intro c hc
      rw [joinSpace] at hc
      rcases List.mem_append.1 hc with hct | hctail
      · exact Or.inl ⟨t, List.mem_cons_self _ _, hct⟩
      · rcases List.mem_cons.1 hctail with hsp | hcj
        · exact Or.inr hsp
        · rcases ih c hcj with ⟨v, hv, hcv⟩ | hsp2
          · exact Or.inl ⟨v, List.mem_cons_of_mem _ hv, hcv⟩
          · exact Or.inr hsp2

theorem tokenizeAux_nil (l : List Char) (h : ∀ c ∈ l, isWordChar c = false) :
    tokenizeAux l [] = [] := by
  induction l with
  | nil => rfl
  | cons c rest ih =>
    rw [tokenizeAux, if_neg (by simp [h c (List.mem_cons_self _ _)])]
    show tokenizeAux rest [] = []
    exact ih fun d hd => h d (List.mem_cons_of_mem _ hd)

/-- C8: the pipeline is total and degrades to empty results: the
aggregator returns the empty ranking on an empty verse sequence and on
texts with no word characters (every function of the embedding is total
on all string inputs by construction). -/
theorem c8_degrade_empty :
    (∀ n, get_top_words_fast [] n = []) ∧
      ∀ n texts, (∀ t ∈ texts, ∀ c ∈ t, isWordChar c = false) →
        get_top_words_fast texts n = [] := by
  constructor
  · intro n
    simp [get_top_words_fast, joinSpace, tokenize, tokenizeAux, countList, sortRanked]
  · intro n texts h
    have htok : tokenize (joinSpace texts) = [] := by
      apply tokenizeAux_nil
      intro c hc
      rcases joinSpace_chars texts c hc with ⟨t, ht, hct⟩ | hsp
      · exact h t ht c hct
      · rw [hsp]
        rfl
    simp [get_top_words_fast, htok, countList, sortRanked]

theorem c8_degrade_empty_witness :
    get_top_words_fast [s2l " .,!?"] 10 = [] :=
  c8_degrade_empty.2 10 [s2l " .,!?"] (by decide)

theorem c10_count_invariants_witness :
    ((search_word_in_bible [⟨s2l "a", 1, 1, s2l "xy"⟩] (s2l "y")).2.2 = "verse" →
      (search_word_in_bible [⟨s2l "a", 1, 1, s2l "xy"⟩] (s2l "y")).1 =
        (search_word_in_bible [⟨s2l "a", 1, 1, s2l "xy"⟩] (s2l "y")).2.1.length) ∧
    ((search_word_in_bible [⟨s2l "a", 1, 1, s2l "xy"⟩] (s2l "y")).2.2 = "word" →
      (search_word_in_bible [⟨s2l "a", 1, 1, s2l "xy"⟩] (s2l "y")).2.1.length ≤
        (search_word_in_bible [⟨s2l "a", 1, 1, s2l "xy"⟩] (s2l "y")).1) ∧
    ((search_word_in_bible [⟨s2l "a", 1, 1, s2l "xy"⟩] (s2l "y")).1 = 0 ↔
      (search_word_in_bible [⟨s2l "a", 1, 1, s2l "xy"⟩] (s2l "y")).2.1 = []) :=
  c10_count_invariants [⟨s2l "a", 1, 1, s2l "xy"⟩] (s2l "y")

end BibleApp
